import Mathlib

/-!
Verification of the EncryptDcrypt file-encryption engine.

The definitions below are a shallow embedding of the repository's core:
`EncryptionEngine.encrypt_file` / `decrypt_file` / `_load_or_generate_key`
(src/encryptdecrypt/core/engine.py) and `is_encrypted_file`
(src/encryptdecrypt/utils/file_utils.py).  Bytes are modelled as `List Nat`
with values below 256.  The engine delegates its cryptography to the
`cryptography` library's Fernet construction, which is called from the
source but not contained in it; those parts are modelled from the spec and
the Fernet token format the source's own comments describe (version byte
0x80, 8-byte big-endian timestamp, 16-byte IV, AES-128-CBC ciphertext with
PKCS7 padding, 32-byte HMAC tag, the whole token url-safe base64 encoded).
The AES block permutation and the HMAC function are kept parametric: every
theorem that needs a property of them (the block cipher inverts, blocks stay
16 bytes, MACs are 32 bytes) takes it as an explicit hypothesis.
-/

namespace EncryptDcrypt

/-- Bytewise xor of two byte strings (used by CBC chaining). -/
def xorB (a b : List Nat) : List Nat := List.zipWith (fun x y => x ^^^ y) a b

/-- All elements are bytes (below 256). -/
def isBytes (l : List Nat) : Prop := ∀ x ∈ l, x < 256

instance (l : List Nat) : Decidable (isBytes l) := by
  unfold isBytes; infer_instance

/-! ## url-safe base64 (RFC 4648 §5), as used by Fernet tokens and keys -/

/-- The url-safe base64 alphabet, as the ASCII code of the character for a
six-bit value. -/
def sextetToChar (s : Nat) : Nat :=
  if s < 26 then 65 + s
  else if s < 52 then 97 + (s - 26)
  else if s < 62 then 48 + (s - 52)
  else if s = 62 then 45
  else 95

/-- Inverse alphabet lookup: the six-bit value of an ASCII code, if it is a
url-safe base64 character. -/
def charToSextet (c : Nat) : Option Nat :=
  if 65 ≤ c ∧ c ≤ 90 then some (c - 65)
  else if 97 ≤ c ∧ c ≤ 122 then some (26 + (c - 97))
  else if 48 ≤ c ∧ c ≤ 57 then some (52 + (c - 48))
  else if c = 45 then some 62
  else if c = 95 then some 63
  else none

/-- url-safe base64 encoding of a byte string, with `=` (ASCII 61) padding. -/
def b64encode : List Nat → List Nat
  | a :: b :: c :: rest =>
      sextetToChar (a / 4) :: sextetToChar (a % 4 * 16 + b / 16) ::
      sextetToChar (b % 16 * 4 + c / 64) :: sextetToChar (c % 64) :: b64encode rest
  | [a, b] => [sextetToChar (a / 4), sextetToChar (a % 4 * 16 + b / 16),
               sextetToChar (b % 16 * 4), 61]
  | [a] => [sextetToChar (a / 4), sextetToChar (a % 4 * 16), 61, 61]
  | [] => []

/-- url-safe base64 decoding: four characters at a time, `=` padding only at
the very end; `none` on any malformed input. -/
def b64decode : List Nat → Option (List Nat)
  | [] => some []
  | c0 :: c1 :: c2 :: c3 :: rest =>
      match charToSextet c0, charToSextet c1 with
      | some s0, some s1 =>
          if c2 = 61 then
            if c3 = 61 ∧ rest = [] then some [s0 * 4 + s1 / 16] else none
          else
            match charToSextet c2 with
            | some s2 =>
                if c3 = 61 then
                  if rest = [] then some [s0 * 4 + s1 / 16, s1 % 16 * 16 + s2 / 4]
                  else none
                else
                  match charToSextet c3 with
                  | some s3 =>
                      match b64decode rest with
                      | some k => some ((s0 * 4 + s1 / 16) :: (s1 % 16 * 16 + s2 / 4) ::
                                        (s2 % 4 * 64 + s3) :: k)
                      | none => none
                  | none => none
            | none => none
      | _, _ => none
  | _ => none

theorem charToSextet_sextetToChar : ∀ s < 64, charToSextet (sextetToChar s) = some s := by
  decide

theorem sextetToChar_ne_61 : ∀ s < 64, sextetToChar s ≠ 61 := by
  decide

theorem b64encode_length : ∀ x : List Nat, (b64encode x).length = 4 * ((x.length + 2) / 3)
  | [] => by simp [b64encode]
  | [a] => by simp [b64encode]
  | [a, b] => by simp [b64encode]
  | a :: b :: c :: rest => by
      have ih := b64encode_length rest
      simp only [b64encode, List.length_cons, ih]
      omega

theorem byte0_recover (a b : Nat) (ha : a < 256) (hb : b < 256) :
    a / 4 * 4 + (a % 4 * 16 + b / 16) / 16 = a := by
  rw [Nat.mul_comm (a % 4) 16, Nat.mul_add_div (by omega)]
  have : b / 16 / 16 = 0 := Nat.div_eq_of_lt (by omega)
  omega

theorem byte1_recover (a b c : Nat) (ha : a < 256) (hb : b < 256) (hc : c < 256) :
    (a % 4 * 16 + b / 16) % 16 * 16 + (b % 16 * 4 + c / 64) / 4 = b := by
  rw [Nat.mul_comm (a % 4) 16, Nat.mul_add_mod, Nat.mul_comm (b % 16) 4,
    Nat.mul_add_div (by omega)]
  have h1 : b / 16 % 16 = b / 16 := Nat.mod_eq_of_lt (by omega)
  have h2 : c / 64 / 4 = 0 := Nat.div_eq_of_lt (by omega)
  omega

theorem byte2_recover (b c : Nat) (hb : b < 256) (hc : c < 256) :
    (b % 16 * 4 + c / 64) % 4 * 64 + c % 64 = c := by
  rw [Nat.mul_comm (b % 16) 4, Nat.mul_add_mod]
  have h1 : c / 64 % 4 = c / 64 := Nat.mod_eq_of_lt (by omega)
  omega

theorem b64_roundtrip : ∀ x : List Nat, isBytes x → b64decode (b64encode x) = some x
  | [], _ => by simp [b64encode, b64decode]
  | [a], h => by
      have ha : a < 256 := h a (by simp)
      have h0 : a / 4 < 64 := by omega
      have h1 : a % 4 * 16 < 64 := by omega
      have e0 : a / 4 * 4 + a % 4 * 16 / 16 = a := by
        rw [Nat.mul_div_cancel _ (by omega)]; omega
      simp only [b64encode, b64decode, charToSextet_sextetToChar _ h0,
        charToSextet_sextetToChar _ h1]
      simp
      omega
  | [a, b], h => by
      have ha : a < 256 := h a (by simp)
      have hb : b < 256 := h b (by simp)
      have h0 : a / 4 < 64 := by omega
      have h1 : a % 4 * 16 + b / 16 < 64 := by omega
      have h2 : b % 16 * 4 < 64 := by omega
      have e0 := byte0_recover a b ha hb
      have e1 : (a % 4 * 16 + b / 16) % 16 * 16 + b % 16 * 4 / 4 = b := by
        rw [Nat.mul_comm (a % 4) 16, Nat.mul_add_mod, Nat.mul_div_cancel _ (by omega)]
        have : b / 16 % 16 = b / 16 := Nat.mod_eq_of_lt (by omega)
        omega
      simp only [b64encode, b64decode, charToSextet_sextetToChar _ h0,
        charToSextet_sextetToChar _ h1]
      rw [if_neg (sextetToChar_ne_61 _ h2)]
      simp only [charToSextet_sextetToChar _ h2]
      simp [e0]
      rw [Nat.mul_comm (a % 4) 16, Nat.mul_add_mod,
        Nat.mod_eq_of_lt (show b / 16 < 16 by omega)]
      omega
  | a :: b :: c :: rest, h => by
      have ha : a < 256 := h a (by simp)
      have hb : b < 256 := h b (by simp)
      have hc : c < 256 := h c (by simp)
      have hrest : isBytes rest := fun x hx => h x (by simp [hx])
      have ih := b64_roundtrip rest hrest
      have h0 : a / 4 < 64 := by omega
      have h1 : a % 4 * 16 + b / 16 < 64 := by omega
      have h2 : b % 16 * 4 + c / 64 < 64 := by omega
      have h3 : c % 64 < 64 := by omega
      have e0 := byte0_recover a b ha hb
      have e1 := byte1_recover a b c ha hb hc
      have e2 := byte2_recover b c hb hc
      simp only [b64encode, b64decode, charToSextet_sextetToChar _ h0,
        charToSextet_sextetToChar _ h1]
      rw [if_neg (sextetToChar_ne_61 _ h2)]
      simp only [charToSextet_sextetToChar _ h2]
      rw [if_neg (sextetToChar_ne_61 _ h3)]
      simp only [charToSextet_sextetToChar _ h3, ih, e0, e1, e2]

theorem b64decode_length : ∀ x k : List Nat, b64decode x = some k →
    x.length = 4 * ((k.length + 2) / 3)
  | [], k => by
      intro h
      simp [b64decode] at h
      subst h
      rfl
  | [c0], k => by intro h; simp [b64decode] at h
  | [c0, c1], k => by intro h; simp [b64decode] at h
  | [c0, c1, c2], k => by intro h; simp [b64decode] at h
  | c0 :: c1 :: c2 :: c3 :: rest, k => by
      intro h
      simp only [b64decode] at h
      cases h0 : charToSextet c0 with
      | none => rw [h0] at h; simp at h
      | some s0 =>
        cases h1 : charToSextet c1 with
        | none => rw [h0, h1] at h; simp at h
        | some s1 =>
          rw [h0, h1] at h
          simp only at h
          by_cases hc2 : c2 = 61
          · rw [if_pos hc2] at h
            by_cases hp : c3 = 61 ∧ rest = []
            · rw [if_pos hp] at h
              cases h
              simp [hp.2]
            · rw [if_neg hp] at h; cases h
          · rw [if_neg hc2] at h
            cases h2 : charToSextet c2 with
            | none => rw [h2] at h; simp at h
            | some s2 =>
              rw [h2] at h
              simp only at h
              by_cases hc3 : c3 = 61
              · rw [if_pos hc3] at h
                by_cases hr : rest = []
                · rw [if_pos hr] at h
                  cases h
                  simp [hr]
                · rw [if_neg hr] at h; cases h
              · rw [if_neg hc3] at h
                cases h3 : charToSextet c3 with
                | none => rw [h3] at h; simp at h
                | some s3 =>
                  rw [h3] at h
                  simp only at h
                  cases hr : b64decode rest with
                  | none => rw [hr] at h; simp at h
                  | some k' =>
                    rw [hr] at h
                    cases h
                    have ih := b64decode_length rest k' hr
                    simp only [List.length_cons, ih]
                    omega

/-! ## PKCS7 padding, 16-byte blocks, CBC chaining

Modelled from the spec: the Fernet construction the source calls
(`cryptography.fernet.Fernet`, used at engine.py:132/174) is not contained
in src/; its ciphertext is AES-128-CBC over PKCS7-padded plaintext, per the
source's own comment at engine.py:131 and the spec's token table (§6). -/

/-- PKCS7 padding to a multiple of 16 bytes: append `16 - len % 16` copies of
that same value (always between 1 and 16). -/
def pkcs7pad (p : List Nat) : List Nat :=
  p ++ List.replicate (16 - p.length % 16) (16 - p.length % 16)

/-- PKCS7 unpadding: read the last byte `n`, require `1 ≤ n ≤ 16`, require the
last `n` bytes all equal `n`, and strip them; `none` on bad padding. -/
def pkcs7unpad (x : List Nat) : Option (List Nat) :=
  match x.getLast? with
  | some n =>
      if 1 ≤ n ∧ n ≤ 16 ∧ n ≤ x.length ∧ (x.drop (x.length - n)).all (· = n) then
        some (x.take (x.length - n))
      else none
  | none => none

/-- Split a byte string into 16-byte chunks (the last chunk may be short if
the length is not a multiple of 16). -/
def chunks16 : List Nat → List (List Nat)
  | [] => []
  | a :: r => ((a :: r).take 16) :: chunks16 ((a :: r).drop 16)
termination_by x => x.length
decreasing_by simp [List.length_drop, List.length_cons]; omega

/-- CBC encryption over a list of 16-byte blocks: each block is xored with the
previous ciphertext block (the IV for the first) and sent through the block
cipher `encB`. -/
def cbcEncBlocks (encB : List Nat → List Nat) : List Nat → List (List Nat) → List (List Nat)
  | _, [] => []
  | prev, b :: bs =>
      let c := encB (xorB prev b)
      c :: cbcEncBlocks encB c bs

/-- CBC decryption over a list of ciphertext blocks. -/
def cbcDecBlocks (decB : List Nat → List Nat) : List Nat → List (List Nat) → List (List Nat)
  | _, [] => []
  | prev, c :: cs => xorB prev (decB c) :: cbcDecBlocks decB c cs

theorem pad_unpad (p : List Nat) (m : Nat) (h1 : 1 ≤ m) (h16 : m ≤ 16) :
    pkcs7unpad (p ++ List.replicate m m) = some p := by
  have hlen : (p ++ List.replicate m m).length = p.length + m := by simp
  rcases Nat.exists_eq_succ_of_ne_zero (show m ≠ 0 by omega) with ⟨k, hk⟩
  have hlast : (p ++ List.replicate m m).getLast? = some m := by
    rw [hk, List.replicate_succ', ← List.append_assoc, List.getLast?_concat]
  have hsub : p.length + m - m = p.length := by omega
  have hdrop : (p ++ List.replicate m m).drop ((p ++ List.replicate m m).length - m) =
      List.replicate m m := by
    rw [hlen, hsub]
    exact List.drop_left p _
  have hcond : 1 ≤ m ∧ m ≤ 16 ∧ m ≤ (p ++ List.replicate m m).length ∧
      ((p ++ List.replicate m m).drop ((p ++ List.replicate m m).length - m)).all
        (· = m) := by
    refine ⟨h1, h16, by rw [hlen]; omega, ?_⟩
    rw [hdrop]
    simp [List.all_eq_true, List.mem_replicate]
  unfold pkcs7unpad
  simp only [hlast, if_pos hcond]
  congr 1
  rw [hlen, hsub]
  exact List.take_left p _

theorem pkcs7_roundtrip (p : List Nat) : pkcs7unpad (pkcs7pad p) = some p := by
  rw [pkcs7pad]
  exact pad_unpad p _ (by omega) (by omega)

theorem pkcs7pad_length (p : List Nat) :
    (pkcs7pad p).length = 16 * (p.length / 16 + 1) := by
  simp [pkcs7pad]
  omega

theorem pkcs7pad_bytes (p : List Nat) (hp : isBytes p) : isBytes (pkcs7pad p) := by
  intro x hx
  rcases List.mem_append.mp hx with h | h
  · exact hp x h
  · rcases List.eq_of_mem_replicate h with rfl
    omega

theorem chunks16_flatten : ∀ x : List Nat, (chunks16 x).flatten = x
  | [] => by simp [chunks16]
  | a :: r => by
    have hdec : ((a :: r).drop 16).length < (a :: r).length := by
      simp [List.length_drop]; omega
    rw [chunks16, List.flatten_cons, chunks16_flatten ((a :: r).drop 16)]
    exact List.take_append_drop 16 (a :: r)
termination_by x => x.length

theorem chunks16_blocklen : ∀ x : List Nat, x.length % 16 = 0 →
    ∀ b ∈ chunks16 x, b.length = 16
  | [] => by simp [chunks16]
  | a :: r => by
    intro hx b hb
    rw [chunks16] at hb
    have hlen : 16 ≤ (a :: r).length := by
      simp only [List.length_cons] at hx ⊢
      omega
    have hdec : ((a :: r).drop 16).length < (a :: r).length := by
      simp [List.length_drop]; omega
    rcases List.mem_cons.mp hb with hbf | hbr
    · rw [hbf, List.length_take]
      simp only [List.length_cons] at hlen ⊢
      omega
    · exact chunks16_blocklen ((a :: r).drop 16)
        (by simp only [List.length_drop]; omega) b hbr
termination_by x => x.length

theorem chunks16_isBytes : ∀ x : List Nat, isBytes x → ∀ b ∈ chunks16 x, isBytes b
  | [] => by simp [chunks16]
  | a :: r => by
    intro hx b hb
    rw [chunks16] at hb
    have hdec : ((a :: r).drop 16).length < (a :: r).length := by
      simp [List.length_drop]; omega
    rcases List.mem_cons.mp hb with hbf | hbr
    · rw [hbf]
      intro y hy
      exact hx y (List.mem_of_mem_take hy)
    · exact chunks16_isBytes ((a :: r).drop 16)
        (fun y hy => hx y (List.mem_of_mem_drop hy)) b hbr
termination_by x => x.length

theorem xorB_length (a b : List Nat) : (xorB a b).length = min a.length b.length := by
  simp [xorB]

theorem xorB_xorB (a : List Nat) : ∀ b : List Nat, a.length = b.length →
    xorB a (xorB a b) = b := by
  induction a with
  | nil =>
    intro b hb
    have : b = [] := List.eq_nil_of_length_eq_zero (by simpa using hb.symm)
    simp [this, xorB]
  | cons x xs ih =>
    intro b hb
    cases b with
    | nil => simp at hb
    | cons y ys =>
      simp only [xorB, List.zipWith_cons_cons]
      rw [show x ^^^ (x ^^^ y) = y by rw [← Nat.xor_assoc, Nat.xor_self, Nat.zero_xor]]
      have := ih ys (by simpa using hb)
      simp only [xorB] at this
      rw [this]

theorem xorB_bytes : ∀ a b : List Nat, isBytes a → isBytes b → isBytes (xorB a b)
  | [], b, _, _ => by simp [xorB, isBytes]
  | _ :: _, [], _, _ => by simp [xorB, isBytes]
  | x :: xs, y :: ys, ha, hb => by
    intro z hz
    simp only [xorB, List.zipWith_cons_cons, List.mem_cons] at hz
    rcases hz with rfl | hz
    · have hx := ha x (by simp)
      have hy := hb y (by simp)
      have h256 : (256 : Nat) = 2 ^ 8 := by norm_num
      rw [h256]
      exact Nat.xor_lt_two_pow (h256 ▸ hx) (h256 ▸ hy)
    · exact xorB_bytes xs ys (fun u hu => ha u (by simp [hu]))
        (fun u hu => hb u (by simp [hu])) z hz

theorem cbcEnc_blocklen (encB : List Nat → List Nat)
    (hE16 : ∀ b, b.length = 16 → (encB b).length = 16) :
    ∀ (bs : List (List Nat)) (prev : List Nat), prev.length = 16 →
      (∀ b ∈ bs, b.length = 16) → ∀ c ∈ cbcEncBlocks encB prev bs, c.length = 16 := by
  intro bs
  induction bs with
  | nil => intro prev _ _ c hc; simp [cbcEncBlocks] at hc
  | cons b rest ih =>
    intro prev hprev hbs c hc
    have hb : b.length = 16 := hbs b (by simp)
    have hxor : (xorB prev b).length = 16 := by
      rw [xorB_length, hprev, hb]; simp
    have hcb : (encB (xorB prev b)).length = 16 := hE16 _ hxor
    simp only [cbcEncBlocks, List.mem_cons] at hc
    rcases hc with rfl | hc
    · exact hcb
    · exact ih (encB (xorB prev b)) hcb (fun y hy => hbs y (by simp [hy])) c hc

theorem cbcEnc_bytes (encB : List Nat → List Nat)
    (hE16 : ∀ b, b.length = 16 → (encB b).length = 16)
    (hEbyte : ∀ b, b.length = 16 → isBytes b → isBytes (encB b)) :
    ∀ (bs : List (List Nat)) (prev : List Nat), prev.length = 16 → isBytes prev →
      (∀ b ∈ bs, b.length = 16) → (∀ b ∈ bs, isBytes b) →
      ∀ c ∈ cbcEncBlocks encB prev bs, isBytes c := by
  intro bs
  induction bs with
  | nil => intro prev _ _ _ _ c hc; simp [cbcEncBlocks] at hc
  | cons b rest ih =>
    intro prev hprev hprevB hbs hbsB c hc
    have hb : b.length = 16 := hbs b (by simp)
    have hbB : isBytes b := hbsB b (by simp)
    have hxlen : (xorB prev b).length = 16 := by rw [xorB_length, hprev, hb]; simp
    have hxB : isBytes (xorB prev b) := xorB_bytes prev b hprevB hbB
    have hclen : (encB (xorB prev b)).length = 16 := hE16 _ hxlen
    have hcB : isBytes (encB (xorB prev b)) := hEbyte _ hxlen hxB
    simp only [cbcEncBlocks, List.mem_cons] at hc
    rcases hc with rfl | hc
    · exact hcB
    · exact ih (encB (xorB prev b)) hclen hcB
        (fun y hy => hbs y (by simp [hy])) (fun y hy => hbsB y (by simp [hy])) c hc

theorem cbc_roundtrip (encB decB : List Nat → List Nat)
    (hDE : ∀ b, decB (encB b) = b)
    (hE16 : ∀ b, b.length = 16 → (encB b).length = 16) :
    ∀ (bs : List (List Nat)) (prev : List Nat), prev.length = 16 →
      (∀ b ∈ bs, b.length = 16) →
      cbcDecBlocks decB prev (cbcEncBlocks encB prev bs) = bs := by
  intro bs
  induction bs with
  | nil => intro prev _ _; simp [cbcEncBlocks, cbcDecBlocks]
  | cons b rest ih =>
    intro prev hprev hbs
    have hb : b.length = 16 := hbs b (by simp)
    have hxlen : (xorB prev b).length = 16 := by rw [xorB_length, hprev, hb]; simp
    have hclen : (encB (xorB prev b)).length = 16 := hE16 _ hxlen
    simp only [cbcEncBlocks, cbcDecBlocks]
    rw [hDE, xorB_xorB prev b (by omega)]
    rw [ih (encB (xorB prev b)) hclen (fun y hy => hbs y (by simp [hy]))]

theorem flatten_length_of_blocklen : ∀ bss : List (List Nat),
    (∀ b ∈ bss, b.length = 16) → bss.flatten.length = 16 * bss.length := by
  intro bss
  induction bss with
  | nil => simp
  | cons b rest ih =>
    intro h
    simp only [List.flatten_cons, List.length_append, List.length_cons,
      h b (by simp), ih (fun y hy => h y (by simp [hy]))]
    ring

theorem flatten_bytes : ∀ bss : List (List Nat),
    (∀ b ∈ bss, isBytes b) → isBytes bss.flatten := by
  intro bss
  induction bss with
  | nil => intro _ x hx; simp at hx
  | cons b rest ih =>
    intro h x hx
    simp only [List.flatten_cons] at hx
    rcases List.mem_append.mp hx with hm | hm
    · exact h b (by simp) x hm
    · exact ih (fun y hy => h y (by simp [hy])) x hm

/-! ## The Fernet token

Modelled from the spec: `Fernet.encrypt` / `Fernet.decrypt` of the
`cryptography` library, called at engine.py:132 and engine.py:174 but not
contained in src/.  The token is the url-safe base64 encoding of
version byte 0x80 ‖ 8-byte big-endian timestamp ‖ 16-byte IV ‖
CBC ciphertext ‖ 32-byte HMAC tag over all preceding fields (spec §4.3, §6).
The AES-128 block permutation (`encB`/`decB`) and the keyed HMAC (`mac`)
are parameters of the model. -/

/-- Big-endian 8-byte encoding of the creation timestamp. -/
def tsBytes (ts : Nat) : List Nat :=
  [ts / 2 ^ 56 % 256, ts / 2 ^ 48 % 256, ts / 2 ^ 40 % 256, ts / 2 ^ 32 % 256,
   ts / 2 ^ 24 % 256, ts / 2 ^ 16 % 256, ts / 2 ^ 8 % 256, ts % 256]

/-- The CBC ciphertext of a plaintext: PKCS7-pad, split into 16-byte blocks,
CBC-chain starting from the IV. -/
def fernetCiphertext (encB : List Nat → List Nat) (iv p : List Nat) : List Nat :=
  (cbcEncBlocks encB iv (chunks16 (pkcs7pad p))).flatten

/-- The authenticated part of a raw (pre-base64) Fernet token:
version ‖ timestamp ‖ IV ‖ ciphertext. -/
def fernetBody (encB : List Nat → List Nat) (ts : Nat) (iv p : List Nat) : List Nat :=
  128 :: tsBytes ts ++ iv ++ fernetCiphertext encB iv p

/-- Fernet encrypt: base64url of body ‖ HMAC(body). -/
def fernetEncode (encB mac : List Nat → List Nat) (ts : Nat) (iv p : List Nat) :
    List Nat :=
  b64encode (fernetBody encB ts iv p ++ mac (fernetBody encB ts iv p))

/-- The only failure Fernet surfaces: `InvalidToken` (the spec's
`AuthenticationError`). -/
inductive FernetError where
  | authenticationError
deriving DecidableEq, Repr

/-- Fernet decrypt: base64-decode, check the version byte 0x80, recompute
and compare the HMAC over everything but the last 32 bytes, CBC-decrypt, and
strip PKCS7 padding; any failure is `authenticationError`, all-or-nothing. -/
def fernetDecode (decB mac : List Nat → List Nat) (tok : List Nat) :
    Except FernetError (List Nat) :=
  match b64decode tok with
  | none => .error .authenticationError
  | some raw =>
    if raw.headD 0 = 128 then
      let body := raw.take (raw.length - 32)
      let tag := raw.drop (raw.length - 32)
      if mac body = tag then
        let iv := (raw.drop 9).take 16
        let ct := body.drop 25
        if ct.length % 16 = 0 then
          match pkcs7unpad (cbcDecBlocks decB iv (chunks16 ct)).flatten with
          | some p => .ok p
          | none => .error .authenticationError
        else .error .authenticationError
      else .error .authenticationError
    else .error .authenticationError

theorem chunks16_flatten_inv : ∀ bss : List (List Nat),
    (∀ b ∈ bss, b.length = 16) → chunks16 bss.flatten = bss := by
  intro bss
  induction bss with
  | nil => intro _; simp [chunks16]
  | cons b rest ih =>
    intro h
    have hb : b.length = 16 := h b (by simp)
    cases b with
    | nil => simp at hb
    | cons a t =>
      simp only [List.flatten_cons, List.cons_append]
      rw [chunks16, ← List.cons_append]
      rw [List.take_left' hb, List.drop_left' hb]
      rw [ih (fun y hy => h y (by simp [hy]))]

theorem tsBytes_length (ts : Nat) : (tsBytes ts).length = 8 := by simp [tsBytes]

theorem tsBytes_bytes (ts : Nat) : isBytes (tsBytes ts) := by
  intro x hx
  simp only [tsBytes, List.mem_cons, List.mem_singleton, List.not_mem_nil, or_false] at hx
  rcases hx with rfl | rfl | rfl | rfl | rfl | rfl | rfl | rfl <;> omega

theorem cbcEnc_length (encB : List Nat → List Nat) :
    ∀ (bs : List (List Nat)) (prev : List Nat),
      (cbcEncBlocks encB prev bs).length = bs.length := by
  intro bs
  induction bs with
  | nil => intro prev; simp [cbcEncBlocks]
  | cons b rest ih => intro prev; simp [cbcEncBlocks, ih]

theorem fernetCiphertext_mod16 (encB : List Nat → List Nat)
    (hE16 : ∀ b, b.length = 16 → (encB b).length = 16)
    (iv p : List Nat) (hiv16 : iv.length = 16) :
    (fernetCiphertext encB iv p).length = (pkcs7pad p).length := by
  have hpadlen : (pkcs7pad p).length % 16 = 0 := by rw [pkcs7pad_length]; omega
  have hblocks := chunks16_blocklen (pkcs7pad p) hpadlen
  have hctblocks := cbcEnc_blocklen encB hE16 (chunks16 (pkcs7pad p)) iv hiv16 hblocks
  rw [fernetCiphertext, flatten_length_of_blocklen _ hctblocks, cbcEnc_length]
  conv_rhs => rw [← chunks16_flatten (pkcs7pad p)]
  rw [flatten_length_of_blocklen _ hblocks]

theorem fernet_roundtrip (encB decB mac : List Nat → List Nat) (ts : Nat)
    (iv p : List Nat)
    (hE16 : ∀ b, b.length = 16 → (encB b).length = 16)
    (hEbyte : ∀ b, b.length = 16 → isBytes b → isBytes (encB b))
    (hDE : ∀ b, decB (encB b) = b)
    (hMacLen : ∀ x, (mac x).length = 32)
    (hMacByte : ∀ x, isBytes (mac x))
    (hiv16 : iv.length = 16) (hivB : isBytes iv) (hp : isBytes p) :
    fernetDecode decB mac (fernetEncode encB mac ts iv p) = .ok p := by
  have hpadlen : (pkcs7pad p).length % 16 = 0 := by rw [pkcs7pad_length]; omega
  have hblocks := chunks16_blocklen (pkcs7pad p) hpadlen
  have hblocksB := chunks16_isBytes (pkcs7pad p) (pkcs7pad_bytes p hp)
  have hctblocks := cbcEnc_blocklen encB hE16 (chunks16 (pkcs7pad p)) iv hiv16 hblocks
  have hctB : isBytes (fernetCiphertext encB iv p) :=
    flatten_bytes _ (cbcEnc_bytes encB hE16 hEbyte _ iv hiv16 hivB hblocks hblocksB)
  have hctmod : (fernetCiphertext encB iv p).length % 16 = 0 := by
    rw [fernetCiphertext, flatten_length_of_blocklen _ hctblocks]; omega
  have hbodyB : isBytes (fernetBody encB ts iv p) := by
    rw [fernetBody]
    intro x hx
    rcases List.mem_cons.mp hx with rfl | hx'
    · omega
    · rcases List.mem_append.mp hx' with h | h
      · rcases List.mem_append.mp h with h1 | h2
        · exact tsBytes_bytes ts x h1
        · exact hivB x h2
      · exact hctB x h
  have hrawB : isBytes (fernetBody encB ts iv p ++ mac (fernetBody encB ts iv p)) := by
    intro x hx
    rcases List.mem_append.mp hx with h | h
    · exact hbodyB x h
    · exact hMacByte _ x h
  have hb64 := b64_roundtrip _ hrawB
  have hbodysplit : fernetBody encB ts iv p =
      ([128] ++ tsBytes ts ++ iv) ++ fernetCiphertext encB iv p := by
    rw [fernetBody]
    simp [List.append_assoc]
  have hbodylen : (fernetBody encB ts iv p).length =
      25 + (fernetCiphertext encB iv p).length := by
    rw [fernetBody]
    simp [tsBytes_length, hiv16]
    omega
  have hhead : (fernetBody encB ts iv p ++ mac (fernetBody encB ts iv p)).headD 0 =
      128 := by
    rw [fernetBody]
    rfl
  have hsplitlen : (fernetBody encB ts iv p ++ mac (fernetBody encB ts iv p)).length -
      32 = (fernetBody encB ts iv p).length := by
    simp [hMacLen]
  have htake : (fernetBody encB ts iv p ++ mac (fernetBody encB ts iv p)).take
      ((fernetBody encB ts iv p ++ mac (fernetBody encB ts iv p)).length - 32) =
      fernetBody encB ts iv p := by
    rw [hsplitlen]
    exact List.take_left _ _
  have hdrop : (fernetBody encB ts iv p ++ mac (fernetBody encB ts iv p)).drop
      ((fernetBody encB ts iv p ++ mac (fernetBody encB ts iv p)).length - 32) =
      mac (fernetBody encB ts iv p) := by
    rw [hsplitlen]
    exact List.drop_left _ _
  have hiv9 : ((fernetBody encB ts iv p ++ mac (fernetBody encB ts iv p)).drop 9).take
      16 = iv := by
    have h9 : ([128] ++ tsBytes ts).length = 9 := by simp [tsBytes_length]
    have heq : fernetBody encB ts iv p ++ mac (fernetBody encB ts iv p) =
        ([128] ++ tsBytes ts) ++ (iv ++ (fernetCiphertext encB iv p ++
          mac (fernetBody encB ts iv p))) := by
      conv_lhs => rw [hbodysplit]
      rw [List.append_assoc ([128] ++ tsBytes ts ++ iv),
        List.append_assoc ([128] ++ tsBytes ts), ← hbodysplit]
    rw [heq, List.drop_left' h9, List.take_left' hiv16]
  have hctext : (fernetBody encB ts iv p).drop 25 = fernetCiphertext encB iv p := by
    have h25 : ([128] ++ tsBytes ts ++ iv).length = 25 := by
      simp [tsBytes_length, hiv16]
    rw [hbodysplit, List.drop_left' h25]
  have hchunks : chunks16 (fernetCiphertext encB iv p) =
      cbcEncBlocks encB iv (chunks16 (pkcs7pad p)) :=
    chunks16_flatten_inv _ hctblocks
  rw [fernetEncode, fernetDecode]
  simp only [hb64]
  rw [if_pos hhead]
  simp only [htake, hdrop, if_pos rfl, hiv9, hctext, if_pos hctmod, hchunks]
  rw [cbc_roundtrip encB decB hDE hE16 _ iv hiv16 hblocks, chunks16_flatten,
    pkcs7_roundtrip]
  simp

theorem fernetBody_length (encB : List Nat → List Nat)
    (hE16 : ∀ b, b.length = 16 → (encB b).length = 16)
    (ts : Nat) (iv p : List Nat) (hiv16 : iv.length = 16) :
    (fernetBody encB ts iv p).length = 25 + 16 * (p.length / 16 + 1) := by
  have hct := fernetCiphertext_mod16 encB hE16 iv p hiv16
  rw [fernetBody]
  simp [tsBytes_length, hiv16, hct, pkcs7pad_length]
  omega

/-- Decoding under a key whose HMAC disagrees with the encoding key's HMAC on
the token body fails with `authenticationError` and returns no plaintext. -/
theorem fernet_wrong_key (encB decB mac1 mac2 : List Nat → List Nat) (ts : Nat)
    (iv p : List Nat)
    (hE16 : ∀ b, b.length = 16 → (encB b).length = 16)
    (hEbyte : ∀ b, b.length = 16 → isBytes b → isBytes (encB b))
    (hMacLen : ∀ x, (mac1 x).length = 32)
    (hMacByte : ∀ x, isBytes (mac1 x))
    (hiv16 : iv.length = 16) (hivB : isBytes iv) (hp : isBytes p)
    (hNe : mac2 (fernetBody encB ts iv p) ≠ mac1 (fernetBody encB ts iv p)) :
    fernetDecode decB mac2 (fernetEncode encB mac1 ts iv p) =
      .error .authenticationError := by
  have hpadlen : (pkcs7pad p).length % 16 = 0 := by rw [pkcs7pad_length]; omega
  have hblocks := chunks16_blocklen (pkcs7pad p) hpadlen
  have hblocksB := chunks16_isBytes (pkcs7pad p) (pkcs7pad_bytes p hp)
  have hctB : isBytes (fernetCiphertext encB iv p) :=
    flatten_bytes _ (cbcEnc_bytes encB hE16 hEbyte _ iv hiv16 hivB hblocks hblocksB)
  have hbodyB : isBytes (fernetBody encB ts iv p) := by
    rw [fernetBody]
    intro x hx
    rcases List.mem_cons.mp hx with rfl | hx'
    · omega
    · rcases List.mem_append.mp hx' with h | h
      · rcases List.mem_append.mp h with h1 | h2
        · exact tsBytes_bytes ts x h1
        · exact hivB x h2
      · exact hctB x h
  have hrawB : isBytes (fernetBody encB ts iv p ++ mac1 (fernetBody encB ts iv p)) := by
    intro x hx
    rcases List.mem_append.mp hx with h | h
    · exact hbodyB x h
    · exact hMacByte _ x h
  have hb64 := b64_roundtrip _ hrawB
  have hhead : (fernetBody encB ts iv p ++ mac1 (fernetBody encB ts iv p)).headD 0 =
      128 := by
    rw [fernetBody]
    rfl
  have hsplitlen : (fernetBody encB ts iv p ++ mac1 (fernetBody encB ts iv p)).length -
      32 = (fernetBody encB ts iv p).length := by
    simp [hMacLen]
  have htake : (fernetBody encB ts iv p ++ mac1 (fernetBody encB ts iv p)).take
      ((fernetBody encB ts iv p ++ mac1 (fernetBody encB ts iv p)).length - 32) =
      fernetBody encB ts iv p := by
    rw [hsplitlen]
    exact List.take_left _ _
  have hdrop : (fernetBody encB ts iv p ++ mac1 (fernetBody encB ts iv p)).drop
      ((fernetBody encB ts iv p ++ mac1 (fernetBody encB ts iv p)).length - 32) =
      mac1 (fernetBody encB ts iv p) := by
    rw [hsplitlen]
    exact List.drop_left _ _
  rw [fernetEncode, fernetDecode]
  simp only [hb64]
  rw [if_pos hhead]
  simp only [htake, hdrop]
  rw [if_neg hNe]

/-! ## The encrypted-state detector

`is_encrypted_file` from src/encryptdecrypt/utils/file_utils.py.  The file
argument is `none` when opening or reading the path raises (the `except`
branch), `some content` otherwise. -/

/-- Membership in the `base64_chars` set of file_utils.py (url-safe base64
alphabet, no padding character). -/
def isB64Char (b : Nat) : Bool :=
  decide (65 ≤ b ∧ b ≤ 90) || decide (97 ≤ b ∧ b ≤ 122) ||
  decide (48 ≤ b ∧ b ≤ 57) || decide (b = 45) || decide (b = 95)

/-- The detector `is_encrypted_file(path)`: read up to 100 bytes; `false` if fewer than 44;
`true` if they start with `gAAAAA` (ASCII `[103,65,65,65,65,65]`); otherwise
`true` only if the first 50 bytes are base64 characters and the data
base64-decodes to at least 32 bytes; `false` on any failure. -/
def is_encrypted_file (file : Option (List Nat)) : Bool :=
  match file with
  | none => false
  | some content =>
    let data := content.take 100
    if data.length < 44 then false
    else if data.take 6 = [103, 65, 65, 65, 65, 65] then true
    else if (data.take 50).all isB64Char then
      match b64decode data with
      | some decoded => decide (32 ≤ decoded.length)
      | none => false
    else false

theorem tsBytes_small (ts : Nat) (hts : ts < 2 ^ 32) :
    tsBytes ts = 0 :: 0 :: 0 :: 0 :: (ts / 2 ^ 24 % 256) :: (ts / 2 ^ 16 % 256) ::
      (ts / 2 ^ 8 % 256) :: [ts % 256] := by
  have h56 : ts / 72057594037927936 = 0 :=
    Nat.div_eq_of_lt (lt_of_lt_of_le hts (by norm_num))
  have h48 : ts / 281474976710656 = 0 :=
    Nat.div_eq_of_lt (lt_of_lt_of_le hts (by norm_num))
  have h40 : ts / 1099511627776 = 0 :=
    Nat.div_eq_of_lt (lt_of_lt_of_le hts (by norm_num))
  have h32 : ts / 4294967296 = 0 :=
    Nat.div_eq_of_lt (lt_of_lt_of_le hts (by norm_num))
  simp [tsBytes, h56, h48, h40, h32]

theorem b64encode_gAAAAA (x : Nat) (rest : List Nat) :
    (b64encode (128 :: 0 :: 0 :: 0 :: 0 :: x :: rest)).take 6 =
      [103, 65, 65, 65, 65, 65] := by
  rw [b64encode, b64encode]
  norm_num [sextetToChar, List.take]

theorem is_encrypted_token (encB mac : List Nat → List Nat) (ts : Nat)
    (iv p : List Nat)
    (hE16 : ∀ b, b.length = 16 → (encB b).length = 16)
    (hMacLen : ∀ x, (mac x).length = 32)
    (hiv16 : iv.length = 16) (hts : ts < 2 ^ 32) :
    is_encrypted_file (some (fernetEncode encB mac ts iv p)) = true := by
  have htoklen : 100 ≤ (fernetEncode encB mac ts iv p).length := by
    rw [fernetEncode, b64encode_length]
    simp [List.length_append, fernetBody_length encB hE16 ts iv p hiv16, hMacLen]
    omega
  have hpre : (fernetEncode encB mac ts iv p).take 6 = [103, 65, 65, 65, 65, 65] := by
    obtain ⟨mb, hmb⟩ : ∃ mb, mac (fernetBody encB ts iv p) = mb := ⟨_, rfl⟩
    rw [fernetEncode, hmb, fernetBody, tsBytes_small ts hts]
    simp only [List.cons_append, List.append_assoc, List.nil_append]
    exact b64encode_gAAAAA _ _
  have hdatalen : ((fernetEncode encB mac ts iv p).take 100).length = 100 := by
    rw [List.length_take]
    omega
  have hdata6 : ((fernetEncode encB mac ts iv p).take 100).take 6 =
      [103, 65, 65, 65, 65, 65] := by
    rw [List.take_take]
    norm_num
    exact hpre
  simp only [is_encrypted_file, hdatalen, hdata6]
  norm_num

theorem is_encrypted_none_false : is_encrypted_file none = false := rfl

theorem is_encrypted_short (content : List Nat) (h : content.length < 44) :
    is_encrypted_file (some content) = false := by
  simp only [is_encrypted_file]
  rw [if_pos]
  rw [List.length_take]
  omega

theorem is_encrypted_badb64 (content : List Nat)
    (h44 : ¬ (content.take 100).length < 44)
    (h6 : (content.take 100).take 6 ≠ [103, 65, 65, 65, 65, 65])
    (hdec : b64decode (content.take 100) = none) :
    is_encrypted_file (some content) = false := by
  simp only [is_encrypted_file]
  rw [if_neg h44, if_neg h6]
  split
  · simp [hdec]
  · rfl

/-! ## File system and the engine's file operations

`EncryptionEngine.encrypt_file` / `decrypt_file` (engine.py:112-193) and the
key loader `_load_or_generate_key` (engine.py:43-64).  A file system is the
contents map plus read/write permission flags; a failed `open` surfaces the
exception message (`str(e)`), which the engine returns in its error result.
The SHA-256 integrity hash (`calculate_file_hash`) is an external primitive
and stays parametric (`hash`); every property proved about it uses only that
it is a function of the file's bytes. -/

structure FSState where
  contents : String → Option (List Nat)
  readable : String → Bool
  writable : String → Bool

/-- Reading a file, `open(path, "rb").read()`: missing file raises FileNotFoundError,
unreadable file raises PermissionError; the engine sees `str(e)`. -/
def fsRead (fs : FSState) (p : String) : Except String (List Nat) :=
  match fs.contents p with
  | none => .error ("[Errno 2] No such file or directory: " ++ p)
  | some d =>
      if fs.readable p then .ok d
      else .error ("[Errno 13] Permission denied: " ++ p)

/-- Writing a file, `open(path, "wb").write(d)`: replaces the contents wholesale, or raises
PermissionError. -/
def fsWrite (fs : FSState) (p : String) (d : List Nat) : Except String FSState :=
  if fs.writable p then
    .ok { fs with contents := fun q => if q = p then some d else fs.contents q }
  else .error ("[Errno 13] Permission denied: " ++ p)

/-- The dict `encrypt_file` returns: `status: success` with
`original_hash`/`encrypted_hash`/`file_size`/`encrypted_size`, or
`status: error` with the exception message. -/
inductive EncResult where
  | success (original_hash encrypted_hash : List Nat) (file_size encrypted_size : Nat)
  | error (msg : String)
deriving DecidableEq, Repr

/-- The dict `decrypt_file` returns: `status: success` with
`encrypted_hash`/`decrypted_hash`/`file_size`, or `status: error`. -/
inductive DecResult where
  | success (encrypted_hash decrypted_hash : List Nat) (file_size : Nat)
  | error (msg : String)
deriving DecidableEq, Repr

/-- The engine operation `EncryptionEngine.encrypt_file`: hash the file, read it, Fernet-encrypt,
overwrite in place, hash again; any exception is caught and returned as an
error result. -/
def encrypt_file (hash encB mac : List Nat → List Nat) (ts : Nat) (iv : List Nat)
    (fs : FSState) (path : String) : EncResult × FSState :=
  match fsRead fs path with
  | .error e => (.error e, fs)
  | .ok hdata =>
    match fsRead fs path with
    | .error e => (.error e, fs)
    | .ok data =>
      match fsWrite fs path (fernetEncode encB mac ts iv data) with
      | .error e => (.error e, fs)
      | .ok fs1 =>
        match fsRead fs1 path with
        | .error e => (.error e, fs1)
        | .ok tdata =>
            (.success (hash hdata) (hash tdata) data.length
              (fernetEncode encB mac ts iv data).length, fs1)

/-- The engine operation `EncryptionEngine.decrypt_file`: hash the file, read it, Fernet-decrypt,
overwrite in place only on success, hash again; `InvalidToken` (whose
`str(e)` is empty) and I/O failures are caught and returned as error
results. -/
def decrypt_file (hash decB mac : List Nat → List Nat)
    (fs : FSState) (path : String) : DecResult × FSState :=
  match fsRead fs path with
  | .error e => (.error e, fs)
  | .ok hdata =>
    match fsRead fs path with
    | .error e => (.error e, fs)
    | .ok data =>
      match fernetDecode decB mac data with
      | .error _ => (.error "", fs)
      | .ok plain =>
        match fsWrite fs path plain with
        | .error e => (.error e, fs)
        | .ok fs1 =>
          match fsRead fs1 path with
          | .error e => (.error e, fs1)
          | .ok pdata => (.success (hash hdata) (hash pdata) plain.length, fs1)

/-- Modelled from the spec: the validation `Fernet.__init__` performs on a
candidate key (the `cryptography` library is called at engine.py:60 but not
contained in src/) — the key must url-safe base64-decode to exactly 32
bytes. -/
def fernetKeyValid (key : List Nat) : Bool :=
  match b64decode key with
  | some k => decide (k.length = 32)
  | none => false

/-- The key loader `EncryptionEngine._load_or_generate_key`: if the key file exists its full
contents are the key, verbatim; otherwise a fresh key (the base64 encoding of
32 random bytes, `Fernet.generate_key()`) is written to the key file.  The
key then initialises `Fernet(key)`; any failure propagates (is re-raised). -/
def load_or_generate_key (fs : FSState) (keyPath : String) (rnd : List Nat) :
    Except String (List Nat × FSState) :=
  if (fs.contents keyPath).isSome then
    match fsRead fs keyPath with
    | .error e => .error e
    | .ok key =>
        if fernetKeyValid key then .ok (key, fs)
        else .error "Fernet key must be 32 url-safe base64-encoded bytes."
  else
    match fsWrite fs keyPath (b64encode rnd) with
    | .error e => .error e
    | .ok fs1 =>
        if fernetKeyValid (b64encode rnd) then .ok (b64encode rnd, fs1)
        else .error "Fernet key must be 32 url-safe base64-encoded bytes."

/-! ## Claim theorems -/

/-- C1: Round-trip.  For every byte sequence `p` and key (modelled by its
block cipher `encB`/`decB` and HMAC `mac`, with the properties AES-128 and
HMAC-SHA256 have: the block cipher inverts and preserves 16-byte blocks, the
MAC is 32 bytes), decoding the token produced by encoding `p` returns exactly
`p`; and at the file level, `decrypt_file` run immediately after a successful
`encrypt_file` of `path` restores the original contents, with the returned
`decrypted_hash` equal to `encrypt_file`'s `original_hash` (both are
`hash p`). -/
theorem claim_C1 (hash encB decB mac : List Nat → List Nat) (ts : Nat)
    (iv p : List Nat) (fs : FSState) (path : String)
    (hE16 : ∀ b, b.length = 16 → (encB b).length = 16)
    (hEbyte : ∀ b, b.length = 16 → isBytes b → isBytes (encB b))
    (hDE : ∀ b, decB (encB b) = b)
    (hMacLen : ∀ x, (mac x).length = 32)
    (hMacByte : ∀ x, isBytes (mac x))
    (hiv16 : iv.length = 16) (hivB : isBytes iv) (hp : isBytes p)
    (hfile : fs.contents path = some p)
    (hread : fs.readable path = true) (hwrite : fs.writable path = true) :
    fernetDecode decB mac (fernetEncode encB mac ts iv p) = .ok p ∧
    (encrypt_file hash encB mac ts iv fs path).1 =
      .success (hash p) (hash (fernetEncode encB mac ts iv p)) p.length
        (fernetEncode encB mac ts iv p).length ∧
    (decrypt_file hash decB mac (encrypt_file hash encB mac ts iv fs path).2 path).1 =
      .success (hash (fernetEncode encB mac ts iv p)) (hash p) p.length ∧
    ((decrypt_file hash decB mac (encrypt_file hash encB mac ts iv fs path).2
        path).2).contents path = some p := by
  have hrt := fernet_roundtrip encB decB mac ts iv p hE16 hEbyte hDE hMacLen
    hMacByte hiv16 hivB hp
  have henc : encrypt_file hash encB mac ts iv fs path =
      (.success (hash p) (hash (fernetEncode encB mac ts iv p)) p.length
        (fernetEncode encB mac ts iv p).length,
       { fs with contents := fun q =>
           if q = path then some (fernetEncode encB mac ts iv p)
           else fs.contents q }) := by
    simp [encrypt_file, fsRead, fsWrite, hfile, hread, hwrite]
  have hdec : decrypt_file hash decB mac
      ({ fs with contents := fun q =>
          if q = path then some (fernetEncode encB mac ts iv p)
          else fs.contents q }) path =
      (.success (hash (fernetEncode encB mac ts iv p)) (hash p) p.length,
       { fs with contents := fun q =>
           if q = path then some p
           else if q = path then some (fernetEncode encB mac ts iv p)
           else fs.contents q }) := by
    simp [decrypt_file, fsRead, fsWrite, hread, hwrite, hrt]
  refine ⟨hrt, ?_, ?_, ?_⟩
  · rw [henc]
  · rw [henc, hdec]
  · rw [henc, hdec]
    simp

/-- C1 witness: the round-trip at a concrete key model, plaintext `hi`,
zero IV and timestamp. -/
theorem claim_C1_witness :
    fernetDecode id (fun _ => List.replicate 32 0)
      (fernetEncode id (fun _ => List.replicate 32 0) 0 (List.replicate 16 0)
        [104, 105]) = .ok [104, 105] :=
  (claim_C1 id id id (fun _ => List.replicate 32 0) 0 (List.replicate 16 0)
    [104, 105]
    ⟨fun q => if q = "f" then some [104, 105] else none, fun _ => true,
      fun _ => true⟩ "f"
    (fun _ h => h) (fun _ _ hb => hb) (fun _ => rfl)
    (fun _ => by simp)
    (fun _ y hy => by rcases List.eq_of_mem_replicate hy with rfl; omega)
    (by simp)
    (fun y hy => by rcases List.eq_of_mem_replicate hy with rfl; omega)
    (by decide) (by simp) rfl rfl).1

/-- C2: Wrong key.  Decoding under a second key (whose HMAC disagrees with
the first key's HMAC on this token body — the collision-freeness the spec
assumes of the primitive) fails with `AuthenticationError` and returns no
plaintext, and `decrypt_file` on a file holding a token of the first key
returns an error result and leaves the file unchanged. -/
theorem claim_C2 (hash encB decB2 mac1 mac2 : List Nat → List Nat) (ts : Nat)
    (iv p : List Nat) (fs : FSState) (path : String)
    (hE16 : ∀ b, b.length = 16 → (encB b).length = 16)
    (hEbyte : ∀ b, b.length = 16 → isBytes b → isBytes (encB b))
    (hMacLen : ∀ x, (mac1 x).length = 32)
    (hMacByte : ∀ x, isBytes (mac1 x))
    (hiv16 : iv.length = 16) (hivB : isBytes iv) (hp : isBytes p)
    (hNe : mac2 (fernetBody encB ts iv p) ≠ mac1 (fernetBody encB ts iv p))
    (hfile : fs.contents path = some (fernetEncode encB mac1 ts iv p))
    (hread : fs.readable path = true) :
    fernetDecode decB2 mac2 (fernetEncode encB mac1 ts iv p) =
      .error .authenticationError ∧
    decrypt_file hash decB2 mac2 fs path = (.error "", fs) := by
  have hwk := fernet_wrong_key encB decB2 mac1 mac2 ts iv p hE16 hEbyte hMacLen
    hMacByte hiv16 hivB hp hNe
  refine ⟨hwk, ?_⟩
  simp [decrypt_file, fsRead, hfile, hread, hwk]

/-- C2 witness: concrete keys whose MACs differ everywhere. -/
theorem claim_C2_witness :
    fernetDecode id (fun _ => List.replicate 32 1)
      (fernetEncode id (fun _ => List.replicate 32 0) 0 (List.replicate 16 0)
        [104, 105]) = .error .authenticationError :=
  (claim_C2 id id id (fun _ => List.replicate 32 0) (fun _ => List.replicate 32 1)
    0 (List.replicate 16 0) [104, 105]
    ⟨fun q => if q = "f" then
        some (fernetEncode id (fun _ => List.replicate 32 0) 0
          (List.replicate 16 0) [104, 105]) else none,
      fun _ => true, fun _ => true⟩ "f"
    (fun _ h => h) (fun _ _ hb => hb)
    (fun _ => by simp)
    (fun _ y hy => by rcases List.eq_of_mem_replicate hy with rfl; omega)
    (by simp)
    (fun y hy => by rcases List.eq_of_mem_replicate hy with rfl; omega)
    (by decide) (by decide) (by simp) rfl).1

/-- C3: Detector soundness on known tokens.  A file whose contents are
exactly a token produced by `fernetEncode` is classified encrypted:
the token is at least 100 bytes, and, the creation timestamp being below
`2^32` (true until the year 2106, as `time.time()` supplies it), its base64
form starts with `gAAAAA`, the detector's fast path. -/
theorem claim_C3 (encB mac : List Nat → List Nat) (ts : Nat) (iv p : List Nat)
    (hE16 : ∀ b, b.length = 16 → (encB b).length = 16)
    (hMacLen : ∀ x, (mac x).length = 32)
    (hiv16 : iv.length = 16) (hts : ts < 2 ^ 32) :
    is_encrypted_file (some (fernetEncode encB mac ts iv p)) = true :=
  is_encrypted_token encB mac ts iv p hE16 hMacLen hiv16 hts

/-- C3 witness: a concrete token with a realistic timestamp. -/
theorem claim_C3_witness :
    is_encrypted_file (some (fernetEncode id (fun _ => List.replicate 32 0)
      1700000000 (List.replicate 16 0) [104, 105])) = true :=
  claim_C3 id (fun _ => List.replicate 32 0) 1700000000 (List.replicate 16 0)
    [104, 105] (fun _ h => h) (fun _ => by simp) (by simp) (by norm_num)

/-- C4: Detector totality and conservatism.  The detector is a total Boolean
function of the file state: a read failure (`none`) classifies `false`, any
file shorter than the 44-byte minimum the code uses classifies `false`, and
when neither the fast path nor base64 decoding succeeds the classification
is `false` — it never raises. -/
theorem claim_C4 (content : List Nat) :
    is_encrypted_file none = false ∧
    (content.length < 44 → is_encrypted_file (some content) = false) ∧
    ((content.take 100).take 6 ≠ [103, 65, 65, 65, 65, 65] →
      b64decode (content.take 100) = none →
      ¬ (content.take 100).length < 44 →
      is_encrypted_file (some content) = false) := by
  refine ⟨is_encrypted_none_false, fun h => is_encrypted_short content h, ?_⟩
  intro h6 hdec h44
  exact is_encrypted_badb64 content h44 h6 hdec

/-- C4 witness: a missing file and an empty file are both classified
unencrypted. -/
theorem claim_C4_witness :
    is_encrypted_file none = false ∧ is_encrypted_file (some []) = false :=
  ⟨(claim_C4 []).1, (claim_C4 []).2.1 (by decide)⟩

/-- C5 counterexample: the claim "the ciphertext field is exactly `len(p)`
bytes" fails already at the empty plaintext: with a (length-preserving)
block cipher the CBC/PKCS7 ciphertext of `[]` is 16 bytes, not 0. -/
theorem claim_C5_counterexample :
    (fernetCiphertext id (List.replicate 16 0) []).length ≠
      ([] : List Nat).length := by
  rw [fernetCiphertext_mod16 id (fun _ h => h) _ _ (by simp), pkcs7pad_length]
  decide

/-- C5 (amended): in a version-1 token the ciphertext field's length is the
PKCS7-padded length `16 * (len(p) / 16 + 1)` — the plaintext length rounded
up to the next multiple of 16 (CBC with PKCS7 padding, engine.py:131), not
`len(p)` itself. -/
theorem claim_C5 (encB : List Nat → List Nat) (iv p : List Nat)
    (hE16 : ∀ b, b.length = 16 → (encB b).length = 16)
    (hiv16 : iv.length = 16) :
    (fernetCiphertext encB iv p).length = 16 * (p.length / 16 + 1) := by
  rw [fernetCiphertext_mod16 encB hE16 iv p hiv16, pkcs7pad_length]

/-- C5 witness: the ciphertext of the 2-byte plaintext `hi` is 16 bytes. -/
theorem claim_C5_witness :
    (fernetCiphertext id (List.replicate 16 0) [104, 105]).length =
      16 * ([104, 105].length / 16 + 1) :=
  claim_C5 id (List.replicate 16 0) [104, 105] (fun _ h => h) (by simp)

theorem fernetKeyValid_length (key : List Nat) (h : fernetKeyValid key = true) :
    key.length = 44 := by
  rw [fernetKeyValid] at h
  cases hdec : b64decode key with
  | none => rw [hdec] at h; simp at h
  | some k =>
    rw [hdec] at h
    simp at h
    have := b64decode_length key k hdec
    rw [this, h]

/-- C6: KeyStore load contract.  When the key file exists, its full contents
are used verbatim as the key (the success value is the contents themselves),
and any contents whose length is not the 44 bytes of a url-safe
base64-encoded 32-byte Fernet key fail validation with an error
(`ValueError` from `Fernet.__init__`, the spec's `KeyFormatError`). -/
theorem claim_C6 (fs : FSState) (keyPath : String) (rnd contents : List Nat)
    (hexists : fs.contents keyPath = some contents)
    (hread : fs.readable keyPath = true) :
    (fernetKeyValid contents = true →
      load_or_generate_key fs keyPath rnd = .ok (contents, fs)) ∧
    (contents.length ≠ 44 →
      load_or_generate_key fs keyPath rnd =
        .error "Fernet key must be 32 url-safe base64-encoded bytes.") := by
  constructor
  · intro hv
    simp [load_or_generate_key, hexists, fsRead, hread, hv]
  · intro hlen
    have hv : fernetKeyValid contents = false := by
      cases hvc : fernetKeyValid contents with
      | false => rfl
      | true => exact absurd (fernetKeyValid_length contents hvc) hlen
    simp [load_or_generate_key, hexists, fsRead, hread, hv]

/-- C6 witness: a valid 44-byte key file is loaded verbatim; a 3-byte key
file is rejected. -/
theorem claim_C6_witness :
    load_or_generate_key
      ⟨fun q => if q = "k" then some (b64encode (List.replicate 32 0)) else none,
        fun _ => true, fun _ => true⟩ "k" [] =
      .ok (b64encode (List.replicate 32 0),
        ⟨fun q => if q = "k" then some (b64encode (List.replicate 32 0)) else none,
          fun _ => true, fun _ => true⟩) ∧
    load_or_generate_key
      ⟨fun q => if q = "k" then some [1, 2, 3] else none,
        fun _ => true, fun _ => true⟩ "k" [] =
      .error "Fernet key must be 32 url-safe base64-encoded bytes." :=
  ⟨(claim_C6 _ "k" [] (b64encode (List.replicate 32 0)) (by simp) rfl).1 (by decide),
   (claim_C6 _ "k" [] [1, 2, 3] (by simp) rfl).2 (by decide)⟩

/-- C7: Tagged-result propagation.  Both file operations catch their own
failures and return a tagged error result instead of raising: a missing
source file yields an error result from either operation with the file
system untouched, and a failed decryption yields an error result from
`decrypt_file`. -/
theorem claim_C7 (hash encB decB mac : List Nat → List Nat) (ts : Nat)
    (iv : List Nat) (fs : FSState) (path : String) :
    (fs.contents path = none →
      encrypt_file hash encB mac ts iv fs path =
        (.error ("[Errno 2] No such file or directory: " ++ path), fs) ∧
      decrypt_file hash decB mac fs path =
        (.error ("[Errno 2] No such file or directory: " ++ path), fs)) ∧
    (∀ data, fs.contents path = some data → fs.readable path = true →
      fernetDecode decB mac data = .error .authenticationError →
      decrypt_file hash decB mac fs path = (.error "", fs)) := by
  constructor
  · intro hnone
    constructor
    · simp [encrypt_file, fsRead, hnone]
    · simp [decrypt_file, fsRead, hnone]
  · intro data hdata hread hfail
    simp [decrypt_file, fsRead, hdata, hread, hfail]

/-- C7 witness: on an empty file system both operations return tagged error
results for a missing path. -/
theorem claim_C7_witness :
    encrypt_file id id id 0 [] ⟨fun _ => none, fun _ => true, fun _ => true⟩ "f" =
      (.error "[Errno 2] No such file or directory: f",
        ⟨fun _ => none, fun _ => true, fun _ => true⟩) ∧
    decrypt_file id id id ⟨fun _ => none, fun _ => true, fun _ => true⟩ "f" =
      (.error "[Errno 2] No such file or directory: f",
        ⟨fun _ => none, fun _ => true, fun _ => true⟩) :=
  (claim_C7 id id id id 0 [] ⟨fun _ => none, fun _ => true, fun _ => true⟩ "f").1 rfl

/-- C8 counterexample: read failures and overwrite failures are NOT surfaced
distinctly.  A file readable-but-unwritable and the same file
unreadable-but-writable produce the very same error result from
`encrypt_file` (Python's `str(e)` for `PermissionError` is identical for the
read `open` and the write `open`), so the caller cannot tell possible
on-disk data loss apart from a file that was never touched. -/
theorem claim_C8_counterexample :
    (encrypt_file id id (fun _ => List.replicate 32 0) 0 (List.replicate 16 0)
      ⟨fun q => if q = "f" then some [1] else none, fun _ => false, fun _ => true⟩
      "f").1 =
    (encrypt_file id id (fun _ => List.replicate 32 0) 0 (List.replicate 16 0)
      ⟨fun q => if q = "f" then some [1] else none, fun _ => true, fun _ => false⟩
      "f").1 := by
  simp [encrypt_file, fsRead, fsWrite]

/-- C8 (amended): a failure of the overwrite step after a successful read is
surfaced to the caller as a tagged error result carrying the exception
message, with the file system unchanged — but in the same form a read
failure takes, not distinctly from it. -/
theorem claim_C8 (hash encB mac : List Nat → List Nat) (ts : Nat) (iv : List Nat)
    (fs : FSState) (path : String) (data : List Nat)
    (hfile : fs.contents path = some data) (hread : fs.readable path = true)
    (hnw : fs.writable path = false) :
    encrypt_file hash encB mac ts iv fs path =
      (.error ("[Errno 13] Permission denied: " ++ path), fs) := by
  simp [encrypt_file, fsRead, fsWrite, hfile, hread, hnw]

/-- C8 witness: a concrete unwritable file. -/
theorem claim_C8_witness :
    encrypt_file id id (fun _ => List.replicate 32 0) 0 (List.replicate 16 0)
      ⟨fun q => if q = "f" then some [1] else none, fun _ => true, fun _ => false⟩
      "f" =
    (.error "[Errno 13] Permission denied: f",
      ⟨fun q => if q = "f" then some [1] else none, fun _ => true,
        fun _ => false⟩) :=
  claim_C8 id id (fun _ => List.replicate 32 0) 0 (List.replicate 16 0)
    ⟨fun q => if q = "f" then some [1] else none, fun _ => true, fun _ => false⟩
    "f" [1] (by simp) rfl rfl

/-- C9: Key persistence.  If `load_or_generate_key` succeeds, running it
again on the file system it produced returns the identical key (and state):
the first call either read the existing key file or created it, and the
second call reads back exactly what the first call settled on. -/
theorem claim_C9 (fs : FSState) (keyPath : String) (rnd1 rnd2 k1 : List Nat)
    (fs1 : FSState) (hread : fs.readable keyPath = true)
    (h1 : load_or_generate_key fs keyPath rnd1 = .ok (k1, fs1)) :
    load_or_generate_key fs1 keyPath rnd2 = .ok (k1, fs1) := by
  cases hc : fs.contents keyPath with
  | some c =>
    have hex : (fs.contents keyPath).isSome = true := by rw [hc]; rfl
    rw [load_or_generate_key, if_pos hex] at h1
    simp only [fsRead, hc, hread, if_true] at h1
    by_cases hv : fernetKeyValid c = true
    · rw [if_pos hv] at h1
      simp only [Except.ok.injEq, Prod.mk.injEq] at h1
      obtain ⟨hk, hfs⟩ := h1
      subst hk
      subst hfs
      rw [load_or_generate_key, if_pos hex]
      simp only [fsRead, hc, hread, if_true]
      rw [if_pos hv]
    · rw [if_neg hv] at h1
      exact absurd h1 (by simp)
  | none =>
    have hex : ¬ ((fs.contents keyPath).isSome = true) := by rw [hc]; simp
    rw [load_or_generate_key, if_neg hex] at h1
    by_cases hw : fs.writable keyPath = true
    · simp only [fsWrite, hw, if_true] at h1
      by_cases hv : fernetKeyValid (b64encode rnd1) = true
      · rw [if_pos hv] at h1
        simp only [Except.ok.injEq, Prod.mk.injEq] at h1
        obtain ⟨hk, hfs⟩ := h1
        subst hk
        subst hfs
        rw [load_or_generate_key, if_pos (by simp)]
        simp only [fsRead]
        simp [hread, hv]
      · rw [if_neg hv] at h1
        exact absurd h1 (by simp)
    · rw [fsWrite, if_neg hw] at h1
      simp at h1

/-- C9 witness: a file system already holding a valid key file returns the
same key on both calls. -/
theorem claim_C9_witness :
    load_or_generate_key
      ⟨fun q => if q = "k" then some (b64encode (List.replicate 32 0)) else none,
        fun _ => true, fun _ => true⟩ "k" (List.replicate 32 1) =
      .ok (b64encode (List.replicate 32 0),
        ⟨fun q => if q = "k" then some (b64encode (List.replicate 32 0)) else none,
          fun _ => true, fun _ => true⟩) :=
  claim_C9
    ⟨fun q => if q = "k" then some (b64encode (List.replicate 32 0)) else none,
      fun _ => true, fun _ => true⟩ "k" (List.replicate 32 0)
    (List.replicate 32 1) (b64encode (List.replicate 32 0)) _ rfl rfl

/-- C10: Decrypt-failure atomicity.  When the file's contents are not a
valid token under the loaded key, `decrypt_file` returns an error result and
leaves the file system — in particular the file's contents — unchanged: the
overwrite happens only after decryption succeeds. -/
theorem claim_C10 (hash decB mac : List Nat → List Nat) (fs : FSState)
    (path : String) (data : List Nat)
    (hfile : fs.contents path = some data) (hread : fs.readable path = true)
    (hbad : fernetDecode decB mac data = .error .authenticationError) :
    decrypt_file hash decB mac fs path = (.error "", fs) ∧
    (decrypt_file hash decB mac fs path).2.contents path = some data := by
  have heq : decrypt_file hash decB mac fs path = (.error "", fs) := by
    simp [decrypt_file, fsRead, hfile, hread, hbad]
  exact ⟨heq, by rw [heq]; exact hfile⟩

/-- C10 witness: a one-byte file is not a token; decrypting leaves it in
place. -/
theorem claim_C10_witness :
    decrypt_file id id (fun _ => List.replicate 32 0)
      ⟨fun q => if q = "f" then some [0] else none, fun _ => true, fun _ => true⟩
      "f" =
    (.error "",
      ⟨fun q => if q = "f" then some [0] else none, fun _ => true,
        fun _ => true⟩) :=
  (claim_C10 id id (fun _ => List.replicate 32 0)
    ⟨fun q => if q = "f" then some [0] else none, fun _ => true, fun _ => true⟩
    "f" [0] (by simp) rfl rfl).1

end EncryptDcrypt
